import Mathlib

/-!
Formal model of the Vision Workbench thread-pool work queues
(`src/vw/Core/ThreadPool.h`, namespace `vw`).

The embedding is sequential: each C++ member function becomes a pure Lean
function on an explicit state value.  `std::map<int, boost::shared_ptr<Task>>`
is modelled as an association list kept strictly sorted by key (the order in
which `std::map` iterates), `std::list` as a Lean list, C++ `int` as `Int`,
and a `boost::shared_ptr<Task>` handed out by `get_next_task` as `Option α`
(the empty shared pointer is `none`).  Tasks are opaque values of a type
parameter `α`.
-/

namespace vw

/-- Insertion into `std::map<int, _>` via `m_queued_tasks[index] = task`:
walk the key-sorted association list; overwrite the value if the key is
present, otherwise insert at the sorted position. -/
def mapInsert {α : Type} (k : Int) (v : α) : List (Int × α) → List (Int × α)
  | [] => [(k, v)]
  | (k0, v0) :: rest =>
    if k < k0 then (k, v) :: (k0, v0) :: rest
    else if k = k0 then (k, v) :: rest
    else (k0, v0) :: mapInsert k v rest

/-- `std::map::find`-style lookup in the association list. -/
def mapFind? {α : Type} (k : Int) : List (Int × α) → Option α
  | [] => none
  | (k0, v0) :: rest => if k = k0 then some v0 else mapFind? k rest

/-- Removal of the entry with key `k` (at most one in a well-formed map). -/
def mapEraseKey {α : Type} (k : Int) : List (Int × α) → List (Int × α)
  | [] => []
  | (k0, v0) :: rest => if k = k0 then rest else (k0, v0) :: mapEraseKey k rest

/-- Well-formedness of the `std::map` model: keys strictly increase, so the
head of the list is `begin()`, the entry with the minimum key. -/
def KeySorted {α : Type} (l : List (Int × α)) : Prop :=
  List.Pairwise (fun a b => a.1 < b.1) l

instance {α : Type} (l : List (Int × α)) : Decidable (KeySorted l) :=
  inferInstanceAs (Decidable (List.Pairwise _ l))

/-- The minimum key of the association list, if any. -/
def minKey? {α : Type} : List (Int × α) → Option Int
  | [] => none
  | (k0, _) :: rest =>
    some (match minKey? rest with
      | none => k0
      | some m => min k0 m)

/-- State owned by `vw::OrderedWorkQueue` beyond the base class: the pending
map `m_queued_tasks` and the counter `m_next_index`.  The base-class slot
state is modelled separately by `WorkQueueState`. -/
structure OrderedWorkQueue (α : Type) where
  m_queued_tasks : List (Int × α)
  m_next_index : Int
deriving DecidableEq, Repr

/-- The `OrderedWorkQueue` constructor sets `m_next_index = 0`; the pending
map starts empty. -/
def OrderedWorkQueue.init {α : Type} : OrderedWorkQueue α := ⟨[], 0⟩

/-- `OrderedWorkQueue::size()`: `m_queued_tasks.size()` returned as C++ `int`. -/
def OrderedWorkQueue.size {α : Type} (q : OrderedWorkQueue α) : Int :=
  (q.m_queued_tasks.length : Int)

/-- `OrderedWorkQueue::add_task(task, index)`: `m_queued_tasks[index] = task`.
The subsequent `notify()` call touches only base-class slot state and is
modelled by the system-level step relation below. -/
def OrderedWorkQueue.add_task {α : Type} (q : OrderedWorkQueue α) (task : α) (index : Int) :
    OrderedWorkQueue α :=
  ⟨mapInsert index task q.m_queued_tasks, q.m_next_index⟩

/-- `OrderedWorkQueue::get_next_task()`: empty map gives the null task;
otherwise inspect `begin()` (the minimum key); if its key differs from
`m_next_index` give the null task; otherwise erase the entry, increment
`m_next_index` and return its task. -/
def OrderedWorkQueue.get_next_task {α : Type} (q : OrderedWorkQueue α) :
    Option α × OrderedWorkQueue α :=
  match q.m_queued_tasks with
  | [] => (none, q)
  | (k, task) :: rest =>
    if k ≠ q.m_next_index then (none, q)
    else (some task, ⟨rest, q.m_next_index + 1⟩)

/-- State owned by `vw::FifoWorkQueue` beyond the base class: the pending
list `m_queued_tasks`. -/
structure FifoWorkQueue (α : Type) where
  m_queued_tasks : List α
deriving DecidableEq, Repr

/-- `FifoWorkQueue::size()`. -/
def FifoWorkQueue.size {α : Type} (q : FifoWorkQueue α) : Int :=
  (q.m_queued_tasks.length : Int)

/-- `FifoWorkQueue::add_task(task)`: `push_back` on the pending list (the
`notify()` call is modelled by the system-level step relation). -/
def FifoWorkQueue.add_task {α : Type} (q : FifoWorkQueue α) (task : α) : FifoWorkQueue α :=
  ⟨q.m_queued_tasks ++ [task]⟩

/-- `FifoWorkQueue::get_next_task()`: the null task if the pending list is
empty, otherwise `front()` removed by `pop_front`. -/
def FifoWorkQueue.get_next_task {α : Type} (q : FifoWorkQueue α) :
    Option α × FifoWorkQueue α :=
  match q.m_queued_tasks with
  | [] => (none, q)
  | task :: rest => (some task, ⟨rest⟩)

/-- Repeatedly poll `get_next_task` up to `n` times, collecting the released
tasks in release order. -/
def FifoWorkQueue.releaseN {α : Type} : Nat → FifoWorkQueue α → List α
  | 0, _ => []
  | n + 1, q =>
    match q.get_next_task with
    | (none, _) => []
    | (some task, q') => task :: FifoWorkQueue.releaseN n q'

/-- The exceptions the modelled code can raise: `vw::LogicErr` thrown by
`VW_ASSERT`, and `std::length_error` thrown by `std::vector::resize`. -/
inductive CxxError where
  | logic_error
  | length_error
deriving DecidableEq, Repr

/-- Base-class state of `vw::WorkQueue`: the data members `m_active_workers`,
`m_max_workers`, `m_running_threads` (a per-slot thread handle, modelled by
whether the handle is non-null), and the free list `m_available_thread_ids`
(`std::list<int>`). -/
structure WorkQueueState where
  m_active_workers : Int
  m_max_workers : Int
  m_running_threads : List Bool
  m_available_thread_ids : List Int
deriving DecidableEq, Repr

/-- The `WorkQueue(int num_threads)` constructor body for a non-negative
thread count: zero active workers, `m_running_threads.resize(num_threads)`
(all handles null), and thread ids `0, ..., num_threads - 1` pushed onto the
free list. -/
def WorkQueue.init (num_threads : Nat) : WorkQueueState :=
  ⟨0, (num_threads : Int), List.replicate num_threads false,
    (List.range num_threads).map Int.ofNat⟩

/-- The value of the C++ `int` argument `num_threads` after the implicit
conversion to the 64-bit `size_t` parameter of
`m_running_threads.resize(num_threads)` (conversion modulo `2 ^ 64`). -/
def toSizeT (n : Int) : Nat := (n % (2 : Int) ^ 64).toNat

/-- The `WorkQueue(int num_threads)` constructor including the
`std::vector::resize` call it performs: `resize` throws `std::length_error`
when the requested size exceeds `max_size()`, and otherwise the constructor
initialises the slot bookkeeping.  `vector_max_size` is the (implementation
defined) `max_size()` of the vector. -/
def WorkQueue.construct (vector_max_size : Nat) (num_threads : Int) :
    Except CxxError WorkQueueState :=
  if toSizeT num_threads ≤ vector_max_size then
    Except.ok (WorkQueue.init (toSizeT num_threads))
  else
    Except.error CxxError.length_error

/-- `WorkQueue::max_threads()`. -/
def WorkQueue.max_threads (wq : WorkQueueState) : Int := wq.m_max_workers

/-- `WorkQueue::active_threads()`. -/
def WorkQueue.active_threads (wq : WorkQueueState) : Int := wq.m_active_workers

/-- `WorkQueue::worker_thread_complete(worker_id)`: decrement
`m_active_workers`; then `VW_ASSERT(worker_id >= 0 && worker_id <
int(m_running_threads.size()), LogicErr() << ...)` — on failure a `LogicErr`
exception propagates (modelled by `Except.error`); on success clear the
slot's thread handle and push the id back onto the free list. -/
def WorkQueue.worker_thread_complete (wq : WorkQueueState) (worker_id : Int) :
    Except CxxError WorkQueueState :=
  if 0 ≤ worker_id ∧ worker_id < (wq.m_running_threads.length : Int) then
    Except.ok
      ⟨wq.m_active_workers - 1, wq.m_max_workers,
        wq.m_running_threads.set worker_id.toNat false,
        wq.m_available_thread_ids ++ [worker_id]⟩
  else
    Except.error CxxError.logic_error

/-- Result of the dispatch loop in `WorkQueue::notify()`: the remaining free
list, the slot handles, the active-worker count, the pending storage of the
subclass, and the log of `WorkerThread` objects created (slot id paired with
the task the worker was bound to). -/
structure NotifyResult (α σ : Type) where
  avail : List Int
  running : List Bool
  active : Int
  pend : σ
  created : List (Int × α)
deriving DecidableEq, Repr

/-- The `while` loop of `WorkQueue::notify()`:
`while (m_available_thread_ids.size() != 0 && (task = this->get_next_task()))`
pop the front free id, create a `WorkerThread` bound to that id and task,
store its thread handle in `m_running_threads`, and increment
`m_active_workers`.  The virtual call `this->get_next_task()` is the
parameter `get_next` acting on the subclass pending storage `σ`. -/
def WorkQueue.notifyLoop {α σ : Type} (get_next : σ → Option α × σ) :
    List Int → List Bool → Int → σ → List (Int × α) → NotifyResult α σ
  | [], running, active, pend, created => ⟨[], running, active, pend, created⟩
  | id :: rest, running, active, pend, created =>
    match get_next pend with
    | (none, pend') => ⟨id :: rest, running, active, pend', created⟩
    | (some task, pend') =>
        WorkQueue.notifyLoop get_next rest (running.set id.toNat true) (active + 1) pend'
          (created ++ [(id, task)])

/-- `WorkQueue::notify()` on the base state paired with the subclass pending
storage; also returns the log of `WorkerThread` objects the call created. -/
def WorkQueue.notify {α σ : Type} (get_next : σ → Option α × σ)
    (wq : WorkQueueState) (pend : σ) :
    WorkQueueState × σ × List (Int × α) :=
  let r := WorkQueue.notifyLoop get_next wq.m_available_thread_ids wq.m_running_threads
    wq.m_active_workers pend []
  (⟨r.active, wq.m_max_workers, r.running, r.avail⟩, r.pend, r.created)

/-- A work-queue system: base slot state, subclass pending storage, and the
ghost log of every `WorkerThread` created so far. -/
structure SysState (α σ : Type) where
  wq : WorkQueueState
  pend : σ
  created : List (Int × α)

/-- Atomic state changes of a running work queue.  `notify` is
`WorkQueue::notify()`.  `complete` is `WorkQueue::worker_thread_complete`,
which is private and invoked exactly once by the `WorkerThread` currently
occupying slot `worker_id`, hence the guard that the slot's handle is set.
`produce` is the pending-storage half of a subclass `add_task` (any change
to the subclass storage; it never touches base-class slot state). -/
inductive WQStep {α σ : Type} (get_next : σ → Option α × σ) :
    SysState α σ → SysState α σ → Prop
  | notify (s : SysState α σ) :
      WQStep get_next s
        ⟨(WorkQueue.notify get_next s.wq s.pend).1,
          (WorkQueue.notify get_next s.wq s.pend).2.1,
          s.created ++ (WorkQueue.notify get_next s.wq s.pend).2.2⟩
  | complete (s : SysState α σ) (worker_id : Int) (wq' : WorkQueueState)
      (hid : 0 ≤ worker_id)
      (hocc : s.wq.m_running_threads.getD worker_id.toNat false = true)
      (hok : WorkQueue.worker_thread_complete s.wq worker_id = Except.ok wq') :
      WQStep get_next s ⟨wq', s.pend, s.created⟩
  | produce (s : SysState α σ) (pend' : σ) :
      WQStep get_next s ⟨s.wq, pend', s.created⟩

/-- States reachable from a freshly constructed queue with `num_threads`
slots and initial pending storage `pend0`. -/
inductive WQReachable {α σ : Type} (get_next : σ → Option α × σ)
    (num_threads : Nat) (pend0 : σ) : SysState α σ → Prop
  | init : WQReachable get_next num_threads pend0 ⟨WorkQueue.init num_threads, pend0, []⟩
  | step {s s' : SysState α σ} : WQReachable get_next num_threads pend0 s →
      WQStep get_next s s' → WQReachable get_next num_threads pend0 s'

/-- The two mutexes involved in dispatch: the base-class slot mutex
`m_queue_mutex` and the subclass pending-storage mutex `m_mutex`. -/
inductive LockId where
  | queue_mutex
  | storage_mutex
deriving DecidableEq, Repr

/-- A lock acquisition or release, in program order. -/
inductive LockEvent where
  | acq (l : LockId)
  | rel (l : LockId)
deriving DecidableEq, Repr

/-- Effect of one lock event on the multiset of currently held locks. -/
def LockEvent.apply (e : LockEvent) (held : List LockId) : List LockId :=
  match e with
  | .acq l => l :: held
  | .rel l => held.erase l

/-- Held locks after running a whole event trace from `held`. -/
def runHeld (held : List LockId) : List LockEvent → List LockId
  | [] => held
  | e :: rest => runHeld (e.apply held) rest

/-- Some point of the trace holds the slot mutex and the storage mutex at
once (nested locking). -/
def bothHeldDuring (held : List LockId) : List LockEvent → Bool
  | [] => false
  | e :: rest =>
    (((e.apply held).contains LockId.queue_mutex) &&
      ((e.apply held).contains LockId.storage_mutex)) ||
    bothHeldDuring (e.apply held) rest

/-- Some acquisition of the base slot mutex happens while the subclass
storage mutex is held — the nesting order that would close a lock-ordering
cycle. -/
def acqQueueWhileStorageHeld (held : List LockId) : List LockEvent → Bool
  | [] => false
  | e :: rest =>
    (match e with
      | .acq LockId.queue_mutex => held.contains LockId.storage_mutex
      | _ => false) ||
    acqQueueWhileStorageHeld (e.apply held) rest

/-- Lock events of `FifoWorkQueue::get_next_task()`: `Mutex::Lock
lock(m_mutex)` covers the whole body, on both the empty and the non-empty
path. -/
def FifoWorkQueue.get_next_task_trace : List LockEvent :=
  [LockEvent.acq LockId.storage_mutex, LockEvent.rel LockId.storage_mutex]

/-- Lock events of `OrderedWorkQueue::get_next_task()`: the emptiness test
reads `m_queued_tasks.size()` before any lock; only the non-empty path
enters the block guarded by `Mutex::Lock lock(m_mutex)`. -/
def OrderedWorkQueue.get_next_task_trace {α : Type} (q : OrderedWorkQueue α) :
    List LockEvent :=
  match q.m_queued_tasks with
  | [] => []
  | _ :: _ => [LockEvent.acq LockId.storage_mutex, LockEvent.rel LockId.storage_mutex]

/-- Lock events of the `WorkQueue::notify()` dispatch loop: each evaluation
of the condition calls the virtual `get_next_task()`, whose lock events are
`get_trace` of the current pending storage. -/
def WorkQueue.notify_loop_trace {α σ : Type} (get_next : σ → Option α × σ)
    (get_trace : σ → List LockEvent) : List Int → σ → List LockEvent
  | [], _ => []
  | _ :: rest, pend =>
    get_trace pend ++
      match get_next pend with
      | (none, _) => []
      | (some _, pend') => WorkQueue.notify_loop_trace get_next get_trace rest pend'

/-- Lock events of `WorkQueue::notify()`: `Mutex::Lock lock(m_queue_mutex)`
is held across the whole dispatch loop. -/
def WorkQueue.notify_trace {α σ : Type} (get_next : σ → Option α × σ)
    (get_trace : σ → List LockEvent) (avail : List Int) (pend : σ) : List LockEvent :=
  LockEvent.acq LockId.queue_mutex ::
    WorkQueue.notify_loop_trace get_next get_trace avail pend ++
    [LockEvent.rel LockId.queue_mutex]

/-- Lock events of `FifoWorkQueue::add_task(task)`: the storage mutex is
taken and released around `push_back`, and only then is `notify()` called. -/
def FifoWorkQueue.add_task_trace {α : Type} (avail : List Int)
    (q : FifoWorkQueue α) (task : α) : List LockEvent :=
  LockEvent.acq LockId.storage_mutex :: LockEvent.rel LockId.storage_mutex ::
    WorkQueue.notify_trace FifoWorkQueue.get_next_task
      (fun _ => FifoWorkQueue.get_next_task_trace) avail (q.add_task task)

/-- Lock events of `OrderedWorkQueue::add_task(task, index)`: the storage
mutex is taken and released around the map insertion, then `notify()`. -/
def OrderedWorkQueue.add_task_trace {α : Type} (avail : List Int)
    (q : OrderedWorkQueue α) (task : α) (index : Int) : List LockEvent :=
  LockEvent.acq LockId.storage_mutex :: LockEvent.rel LockId.storage_mutex ::
    WorkQueue.notify_trace OrderedWorkQueue.get_next_task
      OrderedWorkQueue.get_next_task_trace avail (q.add_task task index)

/-- Lock events of `WorkQueue::worker_thread_complete`: only the slot mutex. -/
def WorkQueue.worker_thread_complete_trace : List LockEvent :=
  [LockEvent.acq LockId.queue_mutex, LockEvent.rel LockId.queue_mutex]

/-- The operations a producer or worker may perform on the pending state of
an `OrderedWorkQueue` (the `notify` triggered by `add_task` only performs
further `get_next_task` calls on this state, so any interleaving the full
system produces is a sequence of these two primitives). -/
inductive OrderedOp (α : Type) where
  | add_task (task : α) (index : Int)
  | get_next_task

/-- Apply one operation to the pending state. -/
def orderedStep {α : Type} (op : OrderedOp α) (q : OrderedWorkQueue α) :
    OrderedWorkQueue α :=
  match op with
  | .add_task task index => q.add_task task index
  | .get_next_task => (q.get_next_task).2

/-- Run a whole operation sequence from a freshly constructed queue. -/
def orderedRun {α : Type} (ops : List (OrderedOp α)) : OrderedWorkQueue α :=
  ops.foldl (fun q op => orderedStep op q) OrderedWorkQueue.init

/-- The slot-bookkeeping invariant of `WorkQueue`: `m_active_workers` counts
the occupied slots, free-list length plus active workers equals
`m_max_workers`, the free list has no duplicate ids, and every id on it is
non-negative with a null thread handle. -/
def WQInv (wq : WorkQueueState) : Prop :=
  wq.m_active_workers = (wq.m_running_threads.count true : Int) ∧
  (wq.m_available_thread_ids.length : Int) + wq.m_active_workers = wq.m_max_workers ∧
  wq.m_available_thread_ids.Nodup ∧
  ∀ id ∈ wq.m_available_thread_ids,
    0 ≤ id ∧ wq.m_running_threads.getD id.toNat true = false

/-! Helper lemmas about the `std::map` model. -/

theorem minKey_eq_head {α : Type} :
    ∀ (l : List (Int × α)), KeySorted l → minKey? l = l.head?.map Prod.fst := by
  intro l
  induction l with
  | nil => intro _; rfl
  | cons p rest ih =>
    intro hs
    obtain ⟨k0, v0⟩ := p
    cases hs with
    | cons hrel hrest =>
      cases rest with
      | nil => rfl
      | cons q rest' =>
        have hq : minKey? (q :: rest') = some q.1 := by
          rw [ih hrest]; rfl
        have hlt : k0 < q.1 := hrel q (List.mem_cons_self q rest')
        have hstep : minKey? ((k0, v0) :: q :: rest') =
            some (match minKey? (q :: rest') with | none => k0 | some m => min k0 m) := rfl
        rw [hstep, hq]
        show some (min k0 q.1) = some k0
        rw [min_eq_left (le_of_lt hlt)]

theorem mapInsert_length_of_mem {α : Type} :
    ∀ (l : List (Int × α)) (k : Int) (v : α), KeySorted l →
      k ∈ l.map Prod.fst → (mapInsert k v l).length = l.length := by
  intro l
  induction l with
  | nil => intro k v _ hmem; simp at hmem
  | cons p rest ih =>
    intro k v hs hmem
    obtain ⟨k0, v0⟩ := p
    have hmem2 : k = k0 ∨ k ∈ rest.map Prod.fst := by simpa using hmem
    cases hs with
    | cons hrel hrest =>
      by_cases hlt : k < k0
      · exfalso
        rcases hmem2 with heq | hmem'
        · exact absurd heq (ne_of_lt hlt)
        · obtain ⟨a, ha, hak⟩ := List.mem_map.mp hmem'
          have hgt : k0 < a.1 := hrel a ha
          rw [hak] at hgt
          omega
      · by_cases heq : k = k0
        · simp [mapInsert, hlt, heq]
        · have hmem' : k ∈ rest.map Prod.fst := by
            rcases hmem2 with h | h
            · exact absurd h heq
            · exact h
          simp only [mapInsert, if_neg hlt, if_neg heq, List.length_cons]
          rw [ih k v hrest hmem']

theorem mapFind?_mapInsert_self {α : Type} :
    ∀ (l : List (Int × α)) (k : Int) (v : α), mapFind? k (mapInsert k v l) = some v := by
  intro l
  induction l with
  | nil => intro k v; simp [mapInsert, mapFind?]
  | cons p rest ih =>
    intro k v
    obtain ⟨k0, v0⟩ := p
    by_cases hlt : k < k0
    · simp [mapInsert, hlt, mapFind?]
    · by_cases heq : k = k0
      · simp [mapInsert, hlt, heq, mapFind?]
      · simp only [mapInsert, if_neg hlt, if_neg heq, mapFind?]
        exact ih k v

theorem mapFind?_mapInsert_ne {α : Type} :
    ∀ (l : List (Int × α)) (k : Int) (v : α) (k' : Int), k' ≠ k →
      mapFind? k' (mapInsert k v l) = mapFind? k' l := by
  intro l
  induction l with
  | nil => intro k v k' hne; simp [mapInsert, mapFind?, if_neg hne]
  | cons p rest ih =>
    intro k v k' hne
    obtain ⟨k0, v0⟩ := p
    by_cases hlt : k < k0
    · simp only [mapInsert, if_pos hlt, mapFind?, if_neg hne]
    · by_cases heq : k = k0
      · subst heq
        simp only [mapInsert, if_neg hlt, if_pos rfl, mapFind?, if_neg hne]
      · simp only [mapInsert, if_neg hlt, if_neg heq, mapFind?]
        by_cases heq' : k' = k0
        · simp [heq']
        · rw [if_neg heq', if_neg heq', ih k v k' hne]

/-! Theorems about the concrete queue policies. -/

/-- C1: `OrderedWorkQueue::get_next_task` returns the null task when the
pending map is empty and when the minimum key present differs from
`m_next_index`; otherwise it removes the entry at the minimum key, bumps
`m_next_index` by one, and returns that entry's task. -/
theorem ordered_get_next_task_correct {α : Type} (q : OrderedWorkQueue α)
    (hs : KeySorted q.m_queued_tasks) :
    (q.m_queued_tasks = [] → q.get_next_task = (none, q)) ∧
    (∀ k, minKey? q.m_queued_tasks = some k → k ≠ q.m_next_index →
      q.get_next_task = (none, q)) ∧
    (∀ task, minKey? q.m_queued_tasks = some q.m_next_index →
      mapFind? q.m_next_index q.m_queued_tasks = some task →
      q.get_next_task =
        (some task, ⟨mapEraseKey q.m_next_index q.m_queued_tasks, q.m_next_index + 1⟩)) := by
  obtain ⟨l, next⟩ := q
  cases l with
  | nil =>
    refine ⟨fun _ => rfl, ?_, ?_⟩
    · intro k hk; simp [minKey?] at hk
    · intro task hk; simp [minKey?] at hk
  | cons p rest =>
    obtain ⟨k0, v0⟩ := p
    have hmin : minKey? ((k0, v0) :: rest) = some k0 := by
      rw [minKey_eq_head _ hs]; rfl
    refine ⟨fun h => absurd h (List.cons_ne_nil _ _), ?_, ?_⟩
    · intro k hk hne
      have hk0 : k = k0 := by rw [hmin] at hk; exact (Option.some_inj.mp hk).symm
      subst hk0
      simp only [OrderedWorkQueue.get_next_task, if_pos hne]
    · intro task hk hfind
      have hk0 : k0 = next := by rw [hmin] at hk; exact Option.some_inj.mp hk
      subst hk0
      have hv : v0 = task := by
        simp only [mapFind?, if_pos rfl] at hfind
        exact Option.some_inj.mp hfind
      subst hv
      simp [OrderedWorkQueue.get_next_task, mapEraseKey]

/-- C1 witness: a concrete release at the minimum key. -/
theorem ordered_get_next_task_correct_witness :
    OrderedWorkQueue.get_next_task (⟨[(0, 7), (2, 9)], 0⟩ : OrderedWorkQueue Nat) =
      (some 7, ⟨mapEraseKey 0 [(0, 7), (2, 9)], (0 : Int) + 1⟩) :=
  (ordered_get_next_task_correct ⟨[(0, 7), (2, 9)], 0⟩ (by decide)).2.2 7 rfl rfl

/-- C4: `FifoWorkQueue::get_next_task` returns the null task on an empty
pending list and otherwise removes and returns the head (oldest) task, so
draining the queue releases tasks exactly in arrival order. -/
theorem fifo_get_next_task_fifo_order (α : Type) :
    FifoWorkQueue.get_next_task (⟨[]⟩ : FifoWorkQueue α) = (none, ⟨[]⟩) ∧
    (∀ (task : α) (rest : List α),
      FifoWorkQueue.get_next_task ⟨task :: rest⟩ = (some task, ⟨rest⟩)) ∧
    (∀ (q : FifoWorkQueue α),
      FifoWorkQueue.releaseN q.m_queued_tasks.length q = q.m_queued_tasks) := by
  refine ⟨rfl, fun task rest => rfl, ?_⟩
  intro q
  obtain ⟨l⟩ := q
  induction l with
  | nil => rfl
  | cons x xs ih =>
    simp only [List.length_cons, FifoWorkQueue.releaseN, FifoWorkQueue.get_next_task]
    rw [ih]

theorem orderedStep_next_index_mono {α : Type} (op : OrderedOp α)
    (q : OrderedWorkQueue α) : q.m_next_index ≤ (orderedStep op q).m_next_index := by
  cases op with
  | add_task task index => exact le_refl _
  | get_next_task =>
    obtain ⟨l, next⟩ := q
    cases l with
    | nil => exact le_refl _
    | cons p rest =>
      obtain ⟨k0, v0⟩ := p
      simp only [orderedStep, OrderedWorkQueue.get_next_task]
      by_cases h : k0 ≠ next
      · rw [if_pos h]
      · rw [if_neg h]
        exact le_of_lt (lt_add_one next)

theorem foldl_orderedStep_mono {α : Type} :
    ∀ (ops : List (OrderedOp α)) (q : OrderedWorkQueue α),
      q.m_next_index ≤ (ops.foldl (fun s op => orderedStep op s) q).m_next_index := by
  intro ops
  induction ops with
  | nil => intro q; exact le_refl _
  | cons op rest ih =>
    intro q
    exact le_trans (orderedStep_next_index_mono op q) (ih (orderedStep op q))

/-- C5: `m_next_index` starts at 0 at construction, is untouched by
`add_task`, never decreases under any operation, and increases by exactly 1
precisely on a successful release; a task is handed out only when its key
equals the current `m_next_index`, its map entry being removed; an
unsuccessful poll changes nothing; over every operation sequence the index
stays non-negative. -/
theorem ordered_next_index_discipline (α : Type) :
    (OrderedWorkQueue.init : OrderedWorkQueue α).m_next_index = 0 ∧
    (∀ (q : OrderedWorkQueue α) (task : α) (index : Int),
      (q.add_task task index).m_next_index = q.m_next_index) ∧
    (∀ (q : OrderedWorkQueue α) (op : OrderedOp α),
      q.m_next_index ≤ (orderedStep op q).m_next_index) ∧
    (∀ (q q' : OrderedWorkQueue α) (task : α), q.get_next_task = (some task, q') →
      q'.m_next_index = q.m_next_index + 1 ∧
      q.m_queued_tasks.head? = some (q.m_next_index, task) ∧
      q'.m_queued_tasks = q.m_queued_tasks.tail) ∧
    (∀ (q : OrderedWorkQueue α), (q.get_next_task).1 = none → (q.get_next_task).2 = q) ∧
    (∀ (ops : List (OrderedOp α)), 0 ≤ (orderedRun ops).m_next_index) := by
  refine ⟨rfl, fun q task index => rfl, fun q op => orderedStep_next_index_mono op q, ?_, ?_, ?_⟩
  · intro q q' task h
    obtain ⟨l, next⟩ := q
    cases l with
    | nil => exact absurd (congrArg Prod.fst h) (by simp [OrderedWorkQueue.get_next_task])
    | cons p rest =>
      obtain ⟨k0, v0⟩ := p
      simp only [OrderedWorkQueue.get_next_task] at h
      by_cases hne : k0 ≠ next
      · rw [if_pos hne] at h
        exact absurd (congrArg Prod.fst h) (by simp)
      · rw [if_neg hne] at h
        have hk : k0 = next := not_ne_iff.mp hne
        subst hk
        rw [Prod.mk.injEq] at h
        obtain ⟨h1, h2⟩ := h
        have htask : v0 = task := Option.some_inj.mp h1
        subst htask
        subst h2
        exact ⟨rfl, rfl, rfl⟩
  · intro q h
    obtain ⟨l, next⟩ := q
    cases l with
    | nil => rfl
    | cons p rest =>
      obtain ⟨k0, v0⟩ := p
      simp only [OrderedWorkQueue.get_next_task] at h ⊢
      by_cases hne : k0 ≠ next
      · rw [if_pos hne]
      · rw [if_neg hne] at h
        simp at h
  · intro ops
    exact foldl_orderedStep_mono ops OrderedWorkQueue.init

/-- C5 witness: a concrete successful release bumps the index by one. -/
theorem ordered_next_index_discipline_witness :
    ((⟨[], 1⟩ : OrderedWorkQueue Nat).m_next_index =
      (⟨[(0, 5)], 0⟩ : OrderedWorkQueue Nat).m_next_index + 1) ∧
    ((⟨[(0, 5)], 0⟩ : OrderedWorkQueue Nat).m_queued_tasks.head? =
      some ((⟨[(0, 5)], 0⟩ : OrderedWorkQueue Nat).m_next_index, 5)) ∧
    ((⟨[], 1⟩ : OrderedWorkQueue Nat).m_queued_tasks =
      (⟨[(0, 5)], 0⟩ : OrderedWorkQueue Nat).m_queued_tasks.tail) :=
  (ordered_next_index_discipline Nat).2.2.2.1 ⟨[(0, 5)], 0⟩ ⟨[], 1⟩ 5 rfl

/-- C10: on a well-formed pending map already containing key `i`,
`add_task(task2, i)` overwrites the stored task (last write wins), leaves
`size()` unchanged, and leaves every other key's entry untouched; the
operation is total, so no error is raised. -/
theorem ordered_add_task_replaces {α : Type} (q : OrderedWorkQueue α) (task2 : α) (i : Int)
    (hs : KeySorted q.m_queued_tasks) (hmem : i ∈ q.m_queued_tasks.map Prod.fst) :
    mapFind? i (q.add_task task2 i).m_queued_tasks = some task2 ∧
    (q.add_task task2 i).size = q.size ∧
    (∀ k, k ≠ i → mapFind? k (q.add_task task2 i).m_queued_tasks =
      mapFind? k q.m_queued_tasks) := by
  refine ⟨mapFind?_mapInsert_self q.m_queued_tasks i task2, ?_, ?_⟩
  · show ((mapInsert i task2 q.m_queued_tasks).length : Int) = (q.m_queued_tasks.length : Int)
    rw [mapInsert_length_of_mem q.m_queued_tasks i task2 hs hmem]
  · intro k hk
    exact mapFind?_mapInsert_ne q.m_queued_tasks i task2 k hk

/-- C10 witness: overwriting index 1 of a two-entry map. -/
theorem ordered_add_task_replaces_witness :
    mapFind? 1 (OrderedWorkQueue.add_task (⟨[(0, 4), (1, 5)], 0⟩ : OrderedWorkQueue Nat) 9 1).m_queued_tasks = some 9 ∧
    (OrderedWorkQueue.add_task (⟨[(0, 4), (1, 5)], 0⟩ : OrderedWorkQueue Nat) 9 1).size =
      (⟨[(0, 4), (1, 5)], 0⟩ : OrderedWorkQueue Nat).size ∧
    mapFind? 0 (OrderedWorkQueue.add_task (⟨[(0, 4), (1, 5)], 0⟩ : OrderedWorkQueue Nat) 9 1).m_queued_tasks =
      mapFind? 0 (⟨[(0, 4), (1, 5)], 0⟩ : OrderedWorkQueue Nat).m_queued_tasks :=
  ⟨(ordered_add_task_replaces ⟨[(0, 4), (1, 5)], 0⟩ 9 1 (by decide) (by decide)).1,
    (ordered_add_task_replaces ⟨[(0, 4), (1, 5)], 0⟩ 9 1 (by decide) (by decide)).2.1,
    (ordered_add_task_replaces ⟨[(0, 4), (1, 5)], 0⟩ 9 1 (by decide) (by decide)).2.2 0 (by decide)⟩

/-- C6 counterexample: on a freshly constructed two-slot queue, slot 0 is
already free (null handle, id on the free list), yet
`worker_thread_complete(0)` does not assert — it silently succeeds,
decrementing `m_active_workers` to `-1` and pushing a duplicate id 0 onto
the free list. -/
theorem worker_thread_complete_free_slot_silent :
    (WorkQueue.init 2).m_running_threads.getD (Int.toNat 0) false = false ∧
    (0 : Int) ∈ (WorkQueue.init 2).m_available_thread_ids ∧
    WorkQueue.worker_thread_complete (WorkQueue.init 2) 0 =
      Except.ok ⟨-1, 2, [false, false], [0, 1, 0]⟩ :=
  ⟨rfl, by decide, rfl⟩

/-- C6 (amended): `worker_thread_complete` raises the `VW_ASSERT` `LogicErr`
exactly when the slot id is outside `[0, m_running_threads.size())`; for any
in-range id — even one whose slot is already free — it silently continues,
decrementing `m_active_workers`, clearing the handle and appending the id to
the free list. -/
theorem worker_thread_complete_assert_characterization :
    ∀ (wq : WorkQueueState) (worker_id : Int),
      ((∃ e, WorkQueue.worker_thread_complete wq worker_id = Except.error e) ↔
        (worker_id < 0 ∨ (wq.m_running_threads.length : Int) ≤ worker_id)) ∧
      (0 ≤ worker_id → worker_id < (wq.m_running_threads.length : Int) →
        WorkQueue.worker_thread_complete wq worker_id =
          Except.ok ⟨wq.m_active_workers - 1, wq.m_max_workers,
            wq.m_running_threads.set worker_id.toNat false,
            wq.m_available_thread_ids ++ [worker_id]⟩) := by
  intro wq worker_id
  by_cases hcond : 0 ≤ worker_id ∧ worker_id < (wq.m_running_threads.length : Int)
  · refine ⟨⟨?_, ?_⟩, ?_⟩
    · intro he
      obtain ⟨e, he⟩ := he
      rw [WorkQueue.worker_thread_complete, if_pos hcond] at he
      exact absurd he (by simp)
    · intro h
      exfalso
      obtain ⟨h1, h2⟩ := hcond
      omega
    · intro h1 h2
      rw [WorkQueue.worker_thread_complete, if_pos hcond]
  · refine ⟨⟨?_, ?_⟩, ?_⟩
    · intro _
      push_neg at hcond
      omega
    · intro _
      exact ⟨_, by rw [WorkQueue.worker_thread_complete, if_neg hcond]⟩
    · intro h1 h2
      exact absurd ⟨h1, h2⟩ hcond

/-- C6 amended-claim witness: an in-range completion on slot 1. -/
theorem worker_thread_complete_assert_characterization_witness :
    WorkQueue.worker_thread_complete (WorkQueue.init 2) 1 =
      Except.ok ⟨(WorkQueue.init 2).m_active_workers - 1, (WorkQueue.init 2).m_max_workers,
        (WorkQueue.init 2).m_running_threads.set (Int.toNat 1) false,
        (WorkQueue.init 2).m_available_thread_ids ++ [1]⟩ :=
  (worker_thread_complete_assert_characterization (WorkQueue.init 2) 1).2
    (by decide) (by decide)

/-- C7: constructing a `WorkQueue` with a negative `num_threads` fails fast.
The constructor performs `m_running_threads.resize(num_threads)`; the C++
`int` argument converts to the 64-bit `size_t` value `num_threads + 2 ^ 64`,
which exceeds any `std::vector::max_size()` (itself below `2 ^ 63` since
`max_size() ≤ PTRDIFF_MAX`), so `resize` throws `std::length_error` and no
queue object with corrupt bookkeeping is ever produced. -/
theorem construct_negative_raises (vector_max_size : Nat) (num_threads : Int)
    (hmax : vector_max_size < 2 ^ 63)
    (hlo : -(2 ^ 31) ≤ num_threads) (hneg : num_threads < 0) :
    WorkQueue.construct vector_max_size num_threads = Except.error CxxError.length_error := by
  have hbig : ¬ (toSizeT num_threads ≤ vector_max_size) := by
    unfold toSizeT
    omega
  rw [WorkQueue.construct, if_neg hbig]

/-- C7 witness: `WorkQueue(-1)` with a realistic `max_size` throws. -/
theorem construct_negative_raises_witness :
    WorkQueue.construct 1000000 (-1) = Except.error CxxError.length_error :=
  construct_negative_raises 1000000 (-1) (by norm_num) (by norm_num) (by norm_num)

/-! Helper lemmas about `List.getD` and `List.set` on the slot table. -/

theorem getD_false_lt_length : ∀ (l : List Bool) (k : Nat),
    l.getD k false = true → k < l.length := by
  intro l
  induction l with
  | nil => intro k h; simp [List.getD] at h
  | cons x xs ih =>
    intro k h
    cases k with
    | zero => simp
    | succ m =>
      have hm : xs.getD m false = true := h
      exact Nat.succ_lt_succ (ih m hm)

theorem getD_set_self : ∀ (l : List Bool) (n : Nat) (b d : Bool),
    n < l.length → (l.set n b).getD n d = b := by
  intro l
  induction l with
  | nil => intro n b d h; simp at h
  | cons x xs ih =>
    intro n b d h
    cases n with
    | zero => rfl
    | succ m => exact ih m b d (Nat.lt_of_succ_lt_succ h)

theorem getD_set_ne : ∀ (l : List Bool) (m n : Nat) (b d : Bool),
    m ≠ n → (l.set m b).getD n d = l.getD n d := by
  intro l
  induction l with
  | nil => intro m n b d _; rfl
  | cons x xs ih =>
    intro m n b d hne
    cases m with
    | zero =>
      cases n with
      | zero => exact absurd rfl hne
      | succ n' => rfl
    | succ m' =>
      cases n with
      | zero => rfl
      | succ n' => exact ih m' n' b d (fun h => hne (congrArg Nat.succ h))

/-! Unfolding lemmas for the `notify` dispatch loop. -/

theorem notifyLoop_nil {α σ : Type} (get_next : σ → Option α × σ)
    (running : List Bool) (active : Int) (pend : σ) (created : List (Int × α)) :
    WorkQueue.notifyLoop get_next [] running active pend created =
      ⟨[], running, active, pend, created⟩ := rfl

theorem notifyLoop_cons_none {α σ : Type} (get_next : σ → Option α × σ)
    (id : Int) (rest : List Int) (running : List Bool) (active : Int)
    (pend pend' : σ) (created : List (Int × α))
    (h : get_next pend = (none, pend')) :
    WorkQueue.notifyLoop get_next (id :: rest) running active pend created =
      ⟨id :: rest, running, active, pend', created⟩ := by
  have hstep : WorkQueue.notifyLoop get_next (id :: rest) running active pend created =
      match get_next pend with
      | (none, p') => ⟨id :: rest, running, active, p', created⟩
      | (some task, p') =>
          WorkQueue.notifyLoop get_next rest (running.set id.toNat true) (active + 1) p'
            (created ++ [(id, task)]) := rfl
  rw [hstep, h]

theorem notifyLoop_cons_some {α σ : Type} (get_next : σ → Option α × σ)
    (id : Int) (rest : List Int) (running : List Bool) (active : Int)
    (pend pend' : σ) (task : α) (created : List (Int × α))
    (h : get_next pend = (some task, pend')) :
    WorkQueue.notifyLoop get_next (id :: rest) running active pend created =
      WorkQueue.notifyLoop get_next rest (running.set id.toNat true) (active + 1) pend'
        (created ++ [(id, task)]) := by
  have hstep : WorkQueue.notifyLoop get_next (id :: rest) running active pend created =
      match get_next pend with
      | (none, p') => ⟨id :: rest, running, active, p', created⟩
      | (some t, p') =>
          WorkQueue.notifyLoop get_next rest (running.set id.toNat true) (active + 1) p'
            (created ++ [(id, t)]) := rfl
  rw [hstep, h]

theorem notify_eq {α σ : Type} (get_next : σ → Option α × σ)
    (wq : WorkQueueState) (pend : σ) :
    WorkQueue.notify get_next wq pend =
      (⟨(WorkQueue.notifyLoop get_next wq.m_available_thread_ids wq.m_running_threads
          wq.m_active_workers pend []).active,
        wq.m_max_workers,
        (WorkQueue.notifyLoop get_next wq.m_available_thread_ids wq.m_running_threads
          wq.m_active_workers pend []).running,
        (WorkQueue.notifyLoop get_next wq.m_available_thread_ids wq.m_running_threads
          wq.m_active_workers pend []).avail⟩,
       (WorkQueue.notifyLoop get_next wq.m_available_thread_ids wq.m_running_threads
          wq.m_active_workers pend []).pend,
       (WorkQueue.notifyLoop get_next wq.m_available_thread_ids wq.m_running_threads
          wq.m_active_workers pend []).created) := rfl

/-- Structure of one full run of the dispatch loop: some number `n` of
dispatches happen, consuming the first `n` free ids in order, incrementing
the active count by `n`, logging `n` new workers bound to exactly those
ids, and the loop stops only because the free list ran out or the last
`get_next_task` call returned the null task. -/
theorem notifyLoop_progress {α σ : Type} (get_next : σ → Option α × σ) :
    ∀ (avail : List Int) (running : List Bool) (active : Int) (pend : σ)
      (created : List (Int × α)),
      ∃ (n : Nat) (newc : List (Int × α)),
        n ≤ avail.length ∧
        (WorkQueue.notifyLoop get_next avail running active pend created).avail =
          avail.drop n ∧
        (WorkQueue.notifyLoop get_next avail running active pend created).active =
          active + n ∧
        (WorkQueue.notifyLoop get_next avail running active pend created).created =
          created ++ newc ∧
        newc.length = n ∧
        newc.map Prod.fst = avail.take n ∧
        ((WorkQueue.notifyLoop get_next avail running active pend created).avail = [] ∨
          ∃ p, get_next p =
            (none, (WorkQueue.notifyLoop get_next avail running active pend created).pend)) := by
  intro avail
  induction avail with
  | nil =>
    intro running active pend created
    refine ⟨0, [], le_refl 0, rfl, ?_, ?_, rfl, rfl, Or.inl rfl⟩
    · rw [notifyLoop_nil get_next running active pend created]; simp
    · rw [notifyLoop_nil get_next running active pend created]; simp
  | cons id rest ih =>
    intro running active pend created
    cases hg : get_next pend with
    | mk ot pend1 =>
      cases ot with
      | none =>
        rw [notifyLoop_cons_none get_next id rest running active pend pend1 created hg]
        refine ⟨0, [], by simp, rfl, by simp, by simp, rfl, rfl, Or.inr ⟨pend, hg⟩⟩
      | some task =>
        rw [notifyLoop_cons_some get_next id rest running active pend pend1 task created hg]
        obtain ⟨n, newc, h1, h2, h3, h4, h5, h6, h7⟩ :=
          ih (running.set id.toNat true) (active + 1) pend1 (created ++ [(id, task)])
        refine ⟨n + 1, (id, task) :: newc, ?_, ?_, ?_, ?_, ?_, ?_, ?_⟩
        · simpa using Nat.succ_le_succ h1
        · simpa using h2
        · rw [h3]; push_cast; ring
        · rw [h4]; simp
        · simp [h5]
        · simp [h6]
        · exact h7

/-- Every worker logged by the dispatch loop occupies its slot in the final
slot table. -/
theorem notifyLoop_marks {α σ : Type} (get_next : σ → Option α × σ) :
    ∀ (avail : List Int) (running : List Bool) (active : Int) (pend : σ)
      (created : List (Int × α)),
      (∀ id ∈ avail, 0 ≤ id ∧ id.toNat < running.length) →
      (∀ pr ∈ created, running.getD pr.1.toNat false = true) →
      ∀ pr ∈ (WorkQueue.notifyLoop get_next avail running active pend created).created,
        (WorkQueue.notifyLoop get_next avail running active pend created).running.getD
          pr.1.toNat false = true := by
  intro avail
  induction avail with
  | nil =>
    intro running active pend created _ hmark
    exact hmark
  | cons id rest ih =>
    intro running active pend created hin hmark
    cases hg : get_next pend with
    | mk ot pend1 =>
      cases ot with
      | none =>
        rw [notifyLoop_cons_none get_next id rest running active pend pend1 created hg]
        exact hmark
      | some task =>
        rw [notifyLoop_cons_some get_next id rest running active pend pend1 task created hg]
        apply ih
        · intro id' hid'
          have h := hin id' (List.mem_cons_of_mem _ hid')
          exact ⟨h.1, by rw [List.length_set]; exact h.2⟩
        · intro pr hpr
          have hbound : id.toNat < running.length := (hin id (List.mem_cons_self id rest)).2
          rcases List.mem_append.mp hpr with hold | hnew
          · by_cases heq : id.toNat = pr.1.toNat
            · rw [← heq, getD_set_self running id.toNat true false hbound]
            · rw [getD_set_ne running id.toNat pr.1.toNat true false heq]
              exact hmark pr hold
          · have hpr' : pr = (id, task) := by simpa using hnew
            subst hpr'
            exact getD_set_self running id.toNat true false hbound

/-- C2: `WorkQueue::notify()` loops: while the free list is non-empty and
`get_next_task` yields a task, it pops the front free id, marks that slot
occupied by a new `WorkerThread` bound to that id and task, and increments
`m_active_workers`; it terminates the first time `get_next_task` reports
the null task or the free list is empty, without retrying. -/
theorem notify_dispatch_loop {α σ : Type} (get_next : σ → Option α × σ) :
    (∀ (running : List Bool) (active : Int) (pend : σ) (created : List (Int × α)),
      WorkQueue.notifyLoop get_next [] running active pend created =
        ⟨[], running, active, pend, created⟩) ∧
    (∀ (id : Int) (rest : List Int) (running : List Bool) (active : Int)
      (pend pend' : σ) (created : List (Int × α)),
      get_next pend = (none, pend') →
      WorkQueue.notifyLoop get_next (id :: rest) running active pend created =
        ⟨id :: rest, running, active, pend', created⟩) ∧
    (∀ (id : Int) (rest : List Int) (running : List Bool) (active : Int)
      (pend pend' : σ) (task : α) (created : List (Int × α)),
      get_next pend = (some task, pend') →
      WorkQueue.notifyLoop get_next (id :: rest) running active pend created =
        WorkQueue.notifyLoop get_next rest (running.set id.toNat true) (active + 1) pend'
          (created ++ [(id, task)])) ∧
    (∀ (wq : WorkQueueState) (pend : σ),
      ∃ n, n ≤ wq.m_available_thread_ids.length ∧
        (WorkQueue.notify get_next wq pend).1.m_available_thread_ids =
          wq.m_available_thread_ids.drop n ∧
        (WorkQueue.notify get_next wq pend).1.m_active_workers =
          wq.m_active_workers + n ∧
        ((WorkQueue.notify get_next wq pend).2.2).length = n ∧
        ((WorkQueue.notify get_next wq pend).2.2).map Prod.fst =
          wq.m_available_thread_ids.take n ∧
        ((WorkQueue.notify get_next wq pend).1.m_available_thread_ids = [] ∨
          ∃ p, get_next p = (none, (WorkQueue.notify get_next wq pend).2.1))) ∧
    (∀ (wq : WorkQueueState) (pend : σ),
      (∀ id ∈ wq.m_available_thread_ids, 0 ≤ id ∧ id.toNat < wq.m_running_threads.length) →
      ∀ pr ∈ (WorkQueue.notify get_next wq pend).2.2,
        (WorkQueue.notify get_next wq pend).1.m_running_threads.getD pr.1.toNat false =
          true) := by
  refine ⟨notifyLoop_nil get_next,
    fun id rest running active pend pend' created h =>
      notifyLoop_cons_none get_next id rest running active pend pend' created h,
    fun id rest running active pend pend' task created h =>
      notifyLoop_cons_some get_next id rest running active pend pend' task created h,
    ?_, ?_⟩
  · intro wq pend
    obtain ⟨n, newc, h1, h2, h3, h4, h5, h6, h7⟩ := notifyLoop_progress get_next
      wq.m_available_thread_ids wq.m_running_threads wq.m_active_workers pend []
    rw [notify_eq]
    refine ⟨n, h1, h2, h3, ?_, ?_, ?_⟩
    · rw [h4] at *
      simpa using h5
    · rw [h4]
      simpa using h6
    · exact h7
  · intro wq pend hin pr hpr
    rw [notify_eq] at hpr ⊢
    exact notifyLoop_marks get_next wq.m_available_thread_ids wq.m_running_threads
      wq.m_active_workers pend [] hin (by intro pr' hpr'; simp at hpr') pr hpr

/-- C2 witness: one concrete dispatch step of the loop. -/
theorem notify_dispatch_loop_witness :
    WorkQueue.notifyLoop FifoWorkQueue.get_next_task [0] [false] 0
        (⟨[7]⟩ : FifoWorkQueue Nat) [] =
      WorkQueue.notifyLoop FifoWorkQueue.get_next_task [] ([false].set (Int.toNat 0) true)
        (0 + 1) ⟨[]⟩ ([] ++ [(0, 7)]) :=
  (notify_dispatch_loop FifoWorkQueue.get_next_task).2.2.1 0 [] [false] 0 ⟨[7]⟩ ⟨[]⟩ 7 [] rfl

/-! Further list helpers for the slot-accounting invariant. -/

theorem getD_true_lt_length : ∀ (l : List Bool) (k : Nat),
    l.getD k true = false → k < l.length := by
  intro l
  induction l with
  | nil => intro k h; simp [List.getD] at h
  | cons x xs ih =>
    intro k h
    cases k with
    | zero => simp
    | succ m =>
      have hm : xs.getD m true = false := h
      exact Nat.succ_lt_succ (ih m hm)

theorem getD_eq_of_lt : ∀ (l : List Bool) (k : Nat) (d d' : Bool),
    k < l.length → l.getD k d = l.getD k d' := by
  intro l
  induction l with
  | nil => intro k d d' h; simp at h
  | cons x xs ih =>
    intro k d d' h
    cases k with
    | zero => rfl
    | succ m => exact ih m d d' (Nat.lt_of_succ_lt_succ h)

theorem getD_replicate_false : ∀ (n k : Nat),
    k < n → (List.replicate n false).getD k true = false := by
  intro n
  induction n with
  | zero => intro k h; simp at h
  | succ m ih =>
    intro k h
    cases k with
    | zero => rfl
    | succ j => exact ih j (Nat.lt_of_succ_lt_succ h)

theorem count_true_replicate_false : ∀ (n : Nat),
    (List.replicate n false).count true = 0 := by
  intro n
  induction n with
  | zero => rfl
  | succ m ih => simp [List.replicate, List.count_cons, ih]

theorem count_true_set_true : ∀ (l : List Bool) (n : Nat), l.getD n true = false →
    (l.set n true).count true = l.count true + 1 := by
  intro l
  induction l with
  | nil => intro n h; simp [List.getD] at h
  | cons x xs ih =>
    intro n h
    cases n with
    | zero =>
      have hx : x = false := h
      subst hx
      simp [List.count_cons]
    | succ m =>
      have hih := ih m h
      cases x with
      | true => simp [List.count_cons, hih]
      | false => simp [List.count_cons, hih]

theorem count_true_set_false : ∀ (l : List Bool) (n : Nat), l.getD n false = true →
    l.count true = (l.set n false).count true + 1 := by
  intro l
  induction l with
  | nil => intro n h; simp [List.getD] at h
  | cons x xs ih =>
    intro n h
    cases n with
    | zero =>
      have hx : x = true := h
      subst hx
      simp [List.count_cons]
    | succ m =>
      have hih := ih m h
      cases x with
      | true => simp [List.count_cons, hih]
      | false => simp [List.count_cons, hih]

/-- The dispatch loop keeps the active count equal to the occupied-slot
count, preserves the free-list/active sum, and keeps the remaining free
list duplicate-free with every remaining id still free. -/
theorem notifyLoop_inv {α σ : Type} (get_next : σ → Option α × σ) :
    ∀ (avail : List Int) (running : List Bool) (active : Int) (pend : σ)
      (created : List (Int × α)),
      active = (running.count true : Int) →
      avail.Nodup →
      (∀ id ∈ avail, 0 ≤ id ∧ running.getD id.toNat true = false) →
      (WorkQueue.notifyLoop get_next avail running active pend created).active =
        ((WorkQueue.notifyLoop get_next avail running active pend created).running.count true : Int) ∧
      ((WorkQueue.notifyLoop get_next avail running active pend created).avail.length : Int) +
        (WorkQueue.notifyLoop get_next avail running active pend created).active =
        (avail.length : Int) + active ∧
      (WorkQueue.notifyLoop get_next avail running active pend created).avail.Nodup ∧
      (∀ id ∈ (WorkQueue.notifyLoop get_next avail running active pend created).avail,
        0 ≤ id ∧
        (WorkQueue.notifyLoop get_next avail running active pend created).running.getD
          id.toNat true = false) := by
  intro avail
  induction avail with
  | nil =>
    intro running active pend created hcount hnodup hfree
    rw [notifyLoop_nil get_next running active pend created]
    exact ⟨hcount, by simp, hnodup, hfree⟩
  | cons id rest ih =>
    intro running active pend created hcount hnodup hfree
    cases hg : get_next pend with
    | mk ot pend1 =>
      cases ot with
      | none =>
        rw [notifyLoop_cons_none get_next id rest running active pend pend1 created hg]
        exact ⟨hcount, by simp, hnodup, hfree⟩
      | some task =>
        rw [notifyLoop_cons_some get_next id rest running active pend pend1 task created hg]
        have hid0 : 0 ≤ id := (hfree id (List.mem_cons_self id rest)).1
        have hidfree : running.getD id.toNat true = false :=
          (hfree id (List.mem_cons_self id rest)).2
        have hnodup' := List.nodup_cons.mp hnodup
        have hcount' : active + 1 = ((running.set id.toNat true).count true : Int) := by
          rw [count_true_set_true running id.toNat hidfree]
          push_cast
          omega
        have hfree' : ∀ id' ∈ rest, 0 ≤ id' ∧
            (running.set id.toNat true).getD id'.toNat true = false := by
          intro id' hid'
          have h := hfree id' (List.mem_cons_of_mem _ hid')
          have hne : id ≠ id' := fun heq => hnodup'.1 (heq ▸ hid')
          have hnet : id.toNat ≠ id'.toNat := by omega
          exact ⟨h.1, by rw [getD_set_ne running id.toNat id'.toNat true true hnet]; exact h.2⟩
        obtain ⟨g1, g2, g3, g4⟩ :=
          ih (running.set id.toNat true) (active + 1) pend1 (created ++ [(id, task)])
            hcount' hnodup'.2 hfree'
        refine ⟨g1, ?_, g3, g4⟩
        rw [g2]
        simp only [List.length_cons]
        push_cast
        omega

/-- Every step of the running system preserves the slot invariant. -/
theorem WQStep_preserves_inv {α σ : Type} (get_next : σ → Option α × σ)
    {s s' : SysState α σ} (hstep : WQStep get_next s s') (hinv : WQInv s.wq) :
    WQInv s'.wq := by
  obtain ⟨h1, h2, h3, h4⟩ := hinv
  cases hstep with
  | notify =>
    obtain ⟨g1, g2, g3, g4⟩ := notifyLoop_inv get_next s.wq.m_available_thread_ids
      s.wq.m_running_threads s.wq.m_active_workers s.pend [] h1 h3 h4
    rw [notify_eq]
    exact ⟨g1, by rw [g2]; exact h2, g3, g4⟩
  | complete worker_id wq' hid hocc hok =>
    have hbound : worker_id.toNat < s.wq.m_running_threads.length :=
      getD_false_lt_length _ _ hocc
    have hcond : 0 ≤ worker_id ∧ worker_id < (s.wq.m_running_threads.length : Int) :=
      ⟨hid, by omega⟩
    rw [WorkQueue.worker_thread_complete, if_pos hcond] at hok
    injection hok with hok
    subst hok
    have hcnt := count_true_set_false s.wq.m_running_threads worker_id.toNat hocc
    have hnotmem : worker_id ∉ s.wq.m_available_thread_ids := by
      intro hmem
      have hfree := (h4 worker_id hmem).2
      rw [getD_eq_of_lt _ _ true false hbound, hocc] at hfree
      exact absurd hfree (by simp)
    refine ⟨?_, ?_, ?_, ?_⟩
    · show s.wq.m_active_workers - 1 =
        (((s.wq.m_running_threads.set worker_id.toNat false).count true : Nat) : Int)
      omega
    · show ((s.wq.m_available_thread_ids ++ [worker_id]).length : Int) +
        (s.wq.m_active_workers - 1) = s.wq.m_max_workers
      have hlen : (s.wq.m_available_thread_ids ++ [worker_id]).length =
          s.wq.m_available_thread_ids.length + 1 := by simp
      rw [hlen]
      push_cast
      omega
    · show (s.wq.m_available_thread_ids ++ [worker_id]).Nodup
      refine List.Nodup.append h3 (List.nodup_singleton worker_id) ?_
      intro a ha ha'
      have : a = worker_id := by simpa using ha'
      exact hnotmem (this ▸ ha)
    · intro id' hmem'
      rcases List.mem_append.mp hmem' with hold | hnew
      · have h := h4 id' hold
        by_cases heq : worker_id.toNat = id'.toNat
        · rw [← heq]
          exact ⟨h.1, by rw [getD_set_self _ _ _ _ hbound]⟩
        · exact ⟨h.1, by rw [getD_set_ne _ _ _ _ _ heq]; exact h.2⟩
      · have : id' = worker_id := by simpa using hnew
        subst this
        exact ⟨hid, by rw [getD_set_self _ _ _ _ hbound]⟩
  | produce pend' =>
    exact ⟨h1, h2, h3, h4⟩

/-- A freshly constructed queue satisfies the slot invariant. -/
theorem WQInv_init (num_threads : Nat) : WQInv (WorkQueue.init num_threads) := by
  refine ⟨?_, ?_, ?_, ?_⟩
  · show (0 : Int) = ((List.replicate num_threads false).count true : Int)
    rw [count_true_replicate_false]
    rfl
  · show ((((List.range num_threads).map Int.ofNat).length : Nat) : Int) + 0 =
      (num_threads : Int)
    simp
  · exact (List.nodup_range num_threads).map (fun a b h => Int.ofNat.inj h)
  · intro id hmem
    obtain ⟨i, hi, hid⟩ := List.mem_map.mp hmem
    subst hid
    refine ⟨Int.ofNat_nonneg i, ?_⟩
    show (List.replicate num_threads false).getD i true = false
    exact getD_replicate_false num_threads i (List.mem_range.mp hi)

/-- The slot invariant holds in every reachable state. -/
theorem WQReachable_inv {α σ : Type} (get_next : σ → Option α × σ)
    (num_threads : Nat) (pend0 : σ) :
    ∀ s : SysState α σ, WQReachable get_next num_threads pend0 s → WQInv s.wq := by
  intro s h
  induction h with
  | init => exact WQInv_init num_threads
  | step hr hstep ih => exact WQStep_preserves_inv get_next hstep ih

/-- C3: on every queue constructed with `num_threads ≥ 0` slots, every
reachable state of the construct/notify/worker-complete system satisfies
`0 ≤ m_active_workers ≤ m_max_workers` and free-list length plus
`m_active_workers` equals `m_max_workers`. -/
theorem workqueue_slot_invariant {α σ : Type} (get_next : σ → Option α × σ)
    (num_threads : Nat) (pend0 : σ) (s : SysState α σ)
    (h : WQReachable get_next num_threads pend0 s) :
    0 ≤ s.wq.m_active_workers ∧
    s.wq.m_active_workers ≤ s.wq.m_max_workers ∧
    (s.wq.m_available_thread_ids.length : Int) + s.wq.m_active_workers =
      s.wq.m_max_workers := by
  obtain ⟨h1, h2, _, _⟩ := WQReachable_inv get_next num_threads pend0 s h
  refine ⟨by omega, by omega, h2⟩

/-- C3 witness: the invariant at a concrete reachable state (after an
`add_task` of task 5 and the `notify` it triggers, on a two-slot queue). -/
theorem workqueue_slot_invariant_witness :
    0 ≤ (WorkQueue.notify FifoWorkQueue.get_next_task (WorkQueue.init 2)
          (⟨[5]⟩ : FifoWorkQueue Nat)).1.m_active_workers ∧
    (WorkQueue.notify FifoWorkQueue.get_next_task (WorkQueue.init 2)
          (⟨[5]⟩ : FifoWorkQueue Nat)).1.m_active_workers ≤
      (WorkQueue.notify FifoWorkQueue.get_next_task (WorkQueue.init 2)
          (⟨[5]⟩ : FifoWorkQueue Nat)).1.m_max_workers ∧
    ((WorkQueue.notify FifoWorkQueue.get_next_task (WorkQueue.init 2)
          (⟨[5]⟩ : FifoWorkQueue Nat)).1.m_available_thread_ids.length : Int) +
      (WorkQueue.notify FifoWorkQueue.get_next_task (WorkQueue.init 2)
          (⟨[5]⟩ : FifoWorkQueue Nat)).1.m_active_workers =
      (WorkQueue.notify FifoWorkQueue.get_next_task (WorkQueue.init 2)
          (⟨[5]⟩ : FifoWorkQueue Nat)).1.m_max_workers :=
  workqueue_slot_invariant FifoWorkQueue.get_next_task 2 (⟨[5]⟩ : FifoWorkQueue Nat)
    (⟨(WorkQueue.notify FifoWorkQueue.get_next_task (WorkQueue.init 2)
        (⟨[5]⟩ : FifoWorkQueue Nat)).1,
      (WorkQueue.notify FifoWorkQueue.get_next_task (WorkQueue.init 2)
        (⟨[5]⟩ : FifoWorkQueue Nat)).2.1,
      [] ++ (WorkQueue.notify FifoWorkQueue.get_next_task (WorkQueue.init 2)
        (⟨[5]⟩ : FifoWorkQueue Nat)).2.2⟩ : SysState Nat (FifoWorkQueue Nat))
    (WQReachable.step WQReachable.init
      (WQStep.notify (⟨WorkQueue.init 2, ⟨[5]⟩, []⟩ : SysState Nat (FifoWorkQueue Nat))))

/-- In a capacity-0 system the free list, the slot table and the worker log
stay empty and the active count stays 0, whatever operations run. -/
theorem cap0_aux {α σ : Type} (get_next : σ → Option α × σ) (pend0 : σ) :
    ∀ s : SysState α σ, WQReachable get_next 0 pend0 s →
      s.wq.m_available_thread_ids = [] ∧ s.wq.m_running_threads = [] ∧
      s.wq.m_active_workers = 0 ∧ s.created = [] := by
  intro s h
  induction h with
  | init => exact ⟨rfl, rfl, rfl, rfl⟩
  | @step s1 s2 hr hstep ih =>
    obtain ⟨ha, hrun, hact, hcr⟩ := ih
    cases hstep with
    | notify =>
      refine ⟨?_, ?_, ?_, ?_⟩
      · show (WorkQueue.notify get_next s1.wq s1.pend).1.m_available_thread_ids = []
        rw [notify_eq, ha, notifyLoop_nil]
      · show (WorkQueue.notify get_next s1.wq s1.pend).1.m_running_threads = []
        rw [notify_eq, ha, notifyLoop_nil]
        exact hrun
      · show (WorkQueue.notify get_next s1.wq s1.pend).1.m_active_workers = 0
        rw [notify_eq, ha, notifyLoop_nil]
        exact hact
      · show s1.created ++ (WorkQueue.notify get_next s1.wq s1.pend).2.2 = []
        rw [notify_eq, ha, notifyLoop_nil, hcr]
        rfl
    | complete worker_id wq' hid hocc hok =>
      exfalso
      rw [hrun] at hocc
      simp [List.getD] at hocc
    | produce pend' =>
      exact ⟨ha, hrun, hact, hcr⟩

/-- C9: a queue constructed with capacity 0 never dispatches:
`active_threads()` is 0 in every reachable state and no `WorkerThread` is
ever created, even though `get_next_task` may still be polled. -/
theorem capacity_zero_never_dispatches {α σ : Type} (get_next : σ → Option α × σ)
    (pend0 : σ) (s : SysState α σ) (h : WQReachable get_next 0 pend0 s) :
    WorkQueue.active_threads s.wq = 0 ∧ s.created = [] := by
  obtain ⟨_, _, hact, hcr⟩ := cap0_aux get_next pend0 s h
  exact ⟨hact, hcr⟩

/-- C9 witness: the state reached by an `add_task(5)` (pending-store update
plus the triggered `notify`) on a capacity-0 FIFO queue. -/
theorem capacity_zero_never_dispatches_witness :
    WorkQueue.active_threads (WorkQueue.notify FifoWorkQueue.get_next_task
        (WorkQueue.init 0) (⟨[5]⟩ : FifoWorkQueue Nat)).1 = 0 ∧
    [] ++ (WorkQueue.notify FifoWorkQueue.get_next_task (WorkQueue.init 0)
        (⟨[5]⟩ : FifoWorkQueue Nat)).2.2 = ([] : List (Int × Nat)) :=
  capacity_zero_never_dispatches FifoWorkQueue.get_next_task (⟨[]⟩ : FifoWorkQueue Nat)
    (⟨(WorkQueue.notify FifoWorkQueue.get_next_task (WorkQueue.init 0)
        (⟨[5]⟩ : FifoWorkQueue Nat)).1,
      (WorkQueue.notify FifoWorkQueue.get_next_task (WorkQueue.init 0)
        (⟨[5]⟩ : FifoWorkQueue Nat)).2.1,
      [] ++ (WorkQueue.notify FifoWorkQueue.get_next_task (WorkQueue.init 0)
        (⟨[5]⟩ : FifoWorkQueue Nat)).2.2⟩ : SysState Nat (FifoWorkQueue Nat))
    (WQReachable.step
      (WQReachable.step WQReachable.init
        (WQStep.produce (⟨WorkQueue.init 0, ⟨[]⟩, []⟩ : SysState Nat (FifoWorkQueue Nat))
          (⟨[5]⟩ : FifoWorkQueue Nat)))
      (WQStep.notify (⟨WorkQueue.init 0, ⟨[5]⟩, []⟩ : SysState Nat (FifoWorkQueue Nat))))

/-! Lemmas about the lock-event scanners. -/

theorem runHeld_append : ∀ (t1 : List LockEvent) (held : List LockId) (t2 : List LockEvent),
    runHeld held (t1 ++ t2) = runHeld (runHeld held t1) t2 := by
  intro t1
  induction t1 with
  | nil => intro held t2; rfl
  | cons e rest ih => intro held t2; exact ih (e.apply held) t2

theorem acqQWSH_append : ∀ (t1 : List LockEvent) (held : List LockId) (t2 : List LockEvent),
    acqQueueWhileStorageHeld held (t1 ++ t2) =
      (acqQueueWhileStorageHeld held t1 ||
        acqQueueWhileStorageHeld (runHeld held t1) t2) := by
  intro t1
  induction t1 with
  | nil => intro held t2; simp [acqQueueWhileStorageHeld, runHeld]
  | cons e rest ih =>
    intro held t2
    cases e with
    | acq l =>
      cases l with
      | queue_mutex =>
        show (held.contains LockId.storage_mutex ||
            acqQueueWhileStorageHeld (LockId.queue_mutex :: held) (rest ++ t2)) =
          ((held.contains LockId.storage_mutex ||
            acqQueueWhileStorageHeld (LockId.queue_mutex :: held) rest) ||
            acqQueueWhileStorageHeld (runHeld (LockId.queue_mutex :: held) rest) t2)
        rw [ih]
        exact (Bool.or_assoc _ _ _).symm
      | storage_mutex =>
        show (false ||
            acqQueueWhileStorageHeld (LockId.storage_mutex :: held) (rest ++ t2)) =
          ((false || acqQueueWhileStorageHeld (LockId.storage_mutex :: held) rest) ||
            acqQueueWhileStorageHeld (runHeld (LockId.storage_mutex :: held) rest) t2)
        rw [ih]
        exact (Bool.or_assoc _ _ _).symm
    | rel l =>
      show (false || acqQueueWhileStorageHeld (held.erase l) (rest ++ t2)) =
        ((false || acqQueueWhileStorageHeld (held.erase l) rest) ||
          acqQueueWhileStorageHeld (runHeld (held.erase l) rest) t2)
      rw [ih]
      exact (Bool.or_assoc _ _ _).symm

theorem notify_loop_trace_nil {α σ : Type} (get_next : σ → Option α × σ)
    (get_trace : σ → List LockEvent) (p : σ) :
    WorkQueue.notify_loop_trace get_next get_trace [] p = [] := rfl

theorem notify_loop_trace_cons {α σ : Type} (get_next : σ → Option α × σ)
    (get_trace : σ → List LockEvent) (id : Int) (rest : List Int) (p : σ) :
    WorkQueue.notify_loop_trace get_next get_trace (id :: rest) p =
      get_trace p ++
        match get_next p with
        | (none, _) => []
        | (some _, p') => WorkQueue.notify_loop_trace get_next get_trace rest p' := rfl

/-- The lock block of `FifoWorkQueue::get_next_task` acquires no base-class
lock and leaves the held set unchanged. -/
theorem fifo_get_block (held : List LockId) :
    acqQueueWhileStorageHeld held FifoWorkQueue.get_next_task_trace = false ∧
    runHeld held FifoWorkQueue.get_next_task_trace = held := by
  constructor
  · rfl
  · show (LockId.storage_mutex :: held).erase LockId.storage_mutex = held
    exact List.erase_cons_head LockId.storage_mutex held

/-- Likewise for `OrderedWorkQueue::get_next_task` (which locks nothing at
all on the empty path). -/
theorem ordered_get_block {α : Type} (q : OrderedWorkQueue α) (held : List LockId) :
    acqQueueWhileStorageHeld held (OrderedWorkQueue.get_next_task_trace q) = false ∧
    runHeld held (OrderedWorkQueue.get_next_task_trace q) = held := by
  obtain ⟨l, next⟩ := q
  cases l with
  | nil => exact ⟨rfl, rfl⟩
  | cons p rest =>
    constructor
    · rfl
    · show (LockId.storage_mutex :: held).erase LockId.storage_mutex = held
      exact List.erase_cons_head LockId.storage_mutex held

/-- The dispatch loop of `notify` never acquires the base slot mutex at all,
so in particular it never acquires it while the storage mutex is held. -/
theorem notify_loop_trace_no_reverse {α σ : Type} (get_next : σ → Option α × σ)
    (get_trace : σ → List LockEvent)
    (hblock : ∀ (p : σ) (held : List LockId),
      acqQueueWhileStorageHeld held (get_trace p) = false ∧
      runHeld held (get_trace p) = held) :
    ∀ (avail : List Int) (p : σ) (held : List LockId),
      acqQueueWhileStorageHeld held
        (WorkQueue.notify_loop_trace get_next get_trace avail p) = false := by
  intro avail
  induction avail with
  | nil => intro p held; rfl
  | cons id rest ih =>
    intro p held
    rw [notify_loop_trace_cons]
    cases hg : get_next p with
    | mk ot p1 =>
      cases ot with
      | none =>
        rw [acqQWSH_append, (hblock p held).1]
        simp [acqQueueWhileStorageHeld]
      | some task =>
        rw [acqQWSH_append, (hblock p held).1, (hblock p held).2]
        simp [ih p1 held]

/-- A whole `notify` call started with the storage mutex not held never
acquires the slot mutex while the storage mutex is held. -/
theorem notify_trace_no_reverse {α σ : Type} (get_next : σ → Option α × σ)
    (get_trace : σ → List LockEvent)
    (hblock : ∀ (p : σ) (held : List LockId),
      acqQueueWhileStorageHeld held (get_trace p) = false ∧
      runHeld held (get_trace p) = held)
    (avail : List Int) (p : σ) (held : List LockId)
    (hheld : held.contains LockId.storage_mutex = false) :
    acqQueueWhileStorageHeld held
      (WorkQueue.notify_trace get_next get_trace avail p) = false := by
  have hstep : WorkQueue.notify_trace get_next get_trace avail p =
      LockEvent.acq LockId.queue_mutex ::
        (WorkQueue.notify_loop_trace get_next get_trace avail p ++
          [LockEvent.rel LockId.queue_mutex]) := rfl
  rw [hstep]
  show (held.contains LockId.storage_mutex ||
      acqQueueWhileStorageHeld (LockId.queue_mutex :: held)
        (WorkQueue.notify_loop_trace get_next get_trace avail p ++
          [LockEvent.rel LockId.queue_mutex])) = false
  rw [hheld, acqQWSH_append,
    notify_loop_trace_no_reverse get_next get_trace hblock avail p
      (LockId.queue_mutex :: held)]
  simp [acqQueueWhileStorageHeld]

/-- C8 counterexample: dispatching a single task on a one-slot FIFO queue,
the two mutexes are held nested — `notify` still holds the base
`m_queue_mutex` when the `get_next_task` call in its loop condition
acquires the subclass `m_mutex`. -/
theorem notify_nests_locks :
    bothHeldDuring []
      (WorkQueue.notify_trace FifoWorkQueue.get_next_task
        (fun _ => FifoWorkQueue.get_next_task_trace) [0]
        (⟨[42]⟩ : FifoWorkQueue Nat)) = true := by decide

/-- C8 (amended): lock nesting does occur in the direction slot-mutex →
storage-mutex (see the dispatch counterexample); but the reverse never
occurs: in no queue operation is the base slot mutex acquired while the
subclass storage mutex is held — `add_task` releases the storage mutex
before calling `notify` — so acquisition follows one consistent order and
no lock-ordering cycle exists. -/
theorem lock_order_consistent (α : Type) :
    (∀ (avail : List Int) (q : FifoWorkQueue α) (task : α),
      acqQueueWhileStorageHeld [] (FifoWorkQueue.add_task_trace avail q task) = false) ∧
    (∀ (avail : List Int) (q : FifoWorkQueue α),
      acqQueueWhileStorageHeld []
        (WorkQueue.notify_trace FifoWorkQueue.get_next_task
          (fun _ => FifoWorkQueue.get_next_task_trace) avail q) = false) ∧
    acqQueueWhileStorageHeld [] FifoWorkQueue.get_next_task_trace = false ∧
    (∀ (avail : List Int) (q : OrderedWorkQueue α) (task : α) (index : Int),
      acqQueueWhileStorageHeld []
        (OrderedWorkQueue.add_task_trace avail q task index) = false) ∧
    (∀ (avail : List Int) (q : OrderedWorkQueue α),
      acqQueueWhileStorageHeld []
        (WorkQueue.notify_trace OrderedWorkQueue.get_next_task
          OrderedWorkQueue.get_next_task_trace avail q) = false) ∧
    (∀ (q : OrderedWorkQueue α),
      acqQueueWhileStorageHeld [] (OrderedWorkQueue.get_next_task_trace q) = false) ∧
    acqQueueWhileStorageHeld [] WorkQueue.worker_thread_complete_trace = false := by
  have hfifo : ∀ (p : FifoWorkQueue α) (held : List LockId),
      acqQueueWhileStorageHeld held ((fun _ => FifoWorkQueue.get_next_task_trace) p) = false ∧
      runHeld held ((fun _ => FifoWorkQueue.get_next_task_trace) p) = held :=
    fun _ held => fifo_get_block held
  have hord : ∀ (p : OrderedWorkQueue α) (held : List LockId),
      acqQueueWhileStorageHeld held (OrderedWorkQueue.get_next_task_trace p) = false ∧
      runHeld held (OrderedWorkQueue.get_next_task_trace p) = held :=
    fun p held => ordered_get_block p held
  refine ⟨?_, ?_, (fifo_get_block []).1, ?_, ?_, fun q => (ordered_get_block q []).1, rfl⟩
  · intro avail q task
    have hstep : FifoWorkQueue.add_task_trace avail q task =
        LockEvent.acq LockId.storage_mutex :: LockEvent.rel LockId.storage_mutex ::
          WorkQueue.notify_trace FifoWorkQueue.get_next_task
            (fun _ => FifoWorkQueue.get_next_task_trace) avail (q.add_task task) := rfl
    rw [hstep]
    show (false || (false ||
        acqQueueWhileStorageHeld
          ((LockId.storage_mutex :: []).erase LockId.storage_mutex)
          (WorkQueue.notify_trace FifoWorkQueue.get_next_task
            (fun _ => FifoWorkQueue.get_next_task_trace) avail (q.add_task task)))) = false
    rw [List.erase_cons_head]
    simp [notify_trace_no_reverse FifoWorkQueue.get_next_task
      (fun _ => FifoWorkQueue.get_next_task_trace) hfifo avail (q.add_task task) [] rfl]
  · intro avail q
    exact notify_trace_no_reverse FifoWorkQueue.get_next_task
      (fun _ => FifoWorkQueue.get_next_task_trace) hfifo avail q [] rfl
  · intro avail q task index
    have hstep : OrderedWorkQueue.add_task_trace avail q task index =
        LockEvent.acq LockId.storage_mutex :: LockEvent.rel LockId.storage_mutex ::
          WorkQueue.notify_trace OrderedWorkQueue.get_next_task
            OrderedWorkQueue.get_next_task_trace avail (q.add_task task index) := rfl
    rw [hstep]
    show (false || (false ||
        acqQueueWhileStorageHeld
          ((LockId.storage_mutex :: []).erase LockId.storage_mutex)
          (WorkQueue.notify_trace OrderedWorkQueue.get_next_task
            OrderedWorkQueue.get_next_task_trace avail (q.add_task task index)))) = false
    rw [List.erase_cons_head]
    simp [notify_trace_no_reverse OrderedWorkQueue.get_next_task
      OrderedWorkQueue.get_next_task_trace hord avail (q.add_task task index) [] rfl]
  · intro avail q
    exact notify_trace_no_reverse OrderedWorkQueue.get_next_task
      OrderedWorkQueue.get_next_task_trace hord avail q [] rfl

end vw
